import Mathlib

/-!
Shallow embedding of `make-vec` (src/src/vec.rs and src/src/raw_vec.rs),
a from-scratch growable vector with manual memory management.

The heap buffer owned by a `Vec<T>` is modelled as a `List (Option α)`
of length `cap`: `some a` is a slot holding a live (initialized) element
`a`, `none` is an uninitialized slot.  Raw pointer operations become:

* `ptr::write(p.add(i), x)`  → `writeSlot buf i x`
* `p.add(i).read()`          → `readSlot buf i` (an `Option α`; `none`
  models reading uninitialized memory, which never happens on the
  code paths reachable from `Vec::new`)
* `p.add(s).copy_to(p.add(d), n)` (an overlapping-safe `memmove`)
                             → `memmove buf s d n`

Panics (`panic!`) are modelled with `Except`: the `error` case carries
the state of the vector at the moment of the abort together with the
panic message string, exactly as the source builds it.
-/

namespace MakeVec

/-- `p.add(i).read()` on a buffer: the slot's contents, `none` if the
slot is out of range (the model's stand-in for undefined behaviour,
which is never exercised from reachable states). -/
def readSlot (buf : List (Option α)) (i : Nat) : Option α :=
  (buf[i]?).getD none

/-- `ptr::write(p.add(i), x)`: store `x` into slot `i`. -/
def writeSlot (buf : List (Option α)) (i : Nat) (x : α) : List (Option α) :=
  buf.set i (some x)

/-- `p.add(src).copy_to(p.add(dst), n)`: `ptr::copy`, i.e. `memmove` —
slot `dst + k` receives the old contents of slot `src + k` for `k < n`,
all reads happening before any write (overlap-safe). -/
def memmove (buf : List (Option α)) (src dst n : Nat) : List (Option α) :=
  (List.range buf.length).map
    (fun j => if dst ≤ j ∧ j < dst + n then readSlot buf (src + (j - dst)) else readSlot buf j)

/-- `Vec<T>` from src/src/vec.rs: a pointer to a heap buffer of `cap`
slots (modelled by the slot list `buf`, whose length is `cap` for every
reachable state) and a logical length `len`. -/
structure Vec (α : Type) where
  buf : List (Option α)
  cap : Nat
  len : Nat
deriving DecidableEq

namespace Vec

/-- `Vec::new()`: dangling pointer (empty buffer), `cap = 0`, `len = 0`. -/
def new : Vec α := ⟨[], 0, 0⟩

/-- `Vec::grow()`: if `cap == 0`, allocate one slot (`new_cap = 1`);
else reallocate to `new_num_bytes = (cap * elem_size) * 2` bytes, i.e.
`cap * 2` slots, preserving the existing contents (`new_cap = cap * 2`).
Fresh slots are uninitialized.  Allocator failure (`panic!("oom")`) is
outside the model: the allocator is assumed to succeed. -/
def grow (v : Vec α) : Vec α :=
  if v.cap = 0 then
    { v with buf := [none], cap := 1 }
  else
    { v with buf := v.buf ++ List.replicate v.cap none, cap := v.cap * 2 }

/-- `Vec::push`: grow when full, `ptr::write` the element into slot
`len`, increment `len`. -/
def push (v : Vec α) (elem : α) : Vec α :=
  let w := if v.len = v.cap then v.grow else v
  { w with buf := writeSlot w.buf w.len elem, len := w.len + 1 }

/-- `Vec::pop`: `None` when empty; otherwise decrement `len` and read
the element out of the just-vacated slot. -/
def pop (v : Vec α) : Vec α × Option α :=
  if v.len = 0 then (v, none)
  else ({ v with len := v.len - 1 }, readSlot v.buf (v.len - 1))

/-- `Vec::insert`: grow first when full, THEN bounds-check
(`index > len` panics with `"overflow {index}"`); shift `[index, len)`
one slot right with `copy_to` when non-empty, write the element into
the gap, increment `len`.  `error` carries the vector state at the
moment of the panic. -/
def insert (v : Vec α) (index : Nat) (elem : α) : Except (Vec α × String) (Vec α) :=
  let w := if v.len = v.cap then v.grow else v
  if index > w.len then .error (w, "overflow " ++ toString index)
  else
    let moveCount := w.len - index
    let buf := if moveCount > 0 then memmove w.buf index (index + 1) moveCount else w.buf
    .ok { w with buf := writeSlot buf index elem, len := w.len + 1 }

/-- `Vec::remove`: panic `"empty"` when `len == 0`, panic
`"out of index"` when `index >= len`; otherwise read slot `index` out,
shift `[index+1, len)` one slot left with `copy_to` when non-empty,
decrement `len`, return the extracted value. -/
def remove (v : Vec α) (index : Nat) : Except (Vec α × String) (Vec α × Option α) :=
  if v.len = 0 then .error (v, "empty")
  else if index ≥ v.len then .error (v, "out of index")
  else
    let value := readSlot v.buf index
    let moveCount := v.len - index - 1
    let buf := if moveCount > 0 then memmove v.buf (index + 1) index moveCount else v.buf
    .ok ({ v with buf := buf, len := v.len - 1 }, value)

/-- `Deref for Vec<T>`: the contiguous read view
`slice::from_raw_parts(ptr, len)` — the first `len` slots. -/
def view (v : Vec α) : List (Option α) := v.buf.take v.len

/-- Pushing a whole sequence, left to right. -/
def pushAll (v : Vec α) (xs : List α) : Vec α := xs.foldl push v

/-- Popping `n` times, collecting the returned signals in order. -/
def popN : Vec α → Nat → Vec α × List (Option α)
  | v, 0 => (v, [])
  | v, n + 1 =>
    let p := v.pop
    let q := popN p.1 n
    (q.1, p.2 :: q.2)

end Vec

/-! ## List-level specification and the refinement relation -/

/-- The operations of the element-manipulation API that mutate the
vector in place. -/
inductive Op (α : Type) where
  | push (x : α)
  | insert (i : Nat) (x : α)
  | remove (i : Nat)
deriving DecidableEq

/-- Spec-level semantics of one operation on the abstract list of live
elements; `none` when the operation's precondition is violated. -/
def specStep (l : List α) : Op α → Option (List α)
  | .push x => some (l ++ [x])
  | .insert i x => if i ≤ l.length then some (l.take i ++ x :: l.drop i) else none
  | .remove i => if i < l.length then some (l.take i ++ l.drop (i + 1)) else none

/-- Spec-level semantics of a sequence of operations starting from `l`. -/
def specExec (l : List α) : List (Op α) → Option (List α)
  | [] => some l
  | op :: ops =>
    match specStep l op with
    | some l' => specExec l' ops
    | none => none

/-- One operation on the concrete vector (the vector state reached,
whether the operation returned normally or panicked). -/
def vecStep (v : Vec α) : Op α → Vec α
  | .push x => v.push x
  | .insert i x =>
    match v.insert i x with
    | .ok w => w
    | .error (w, _) => w
  | .remove i =>
    match v.remove i with
    | .ok (w, _) => w
    | .error (w, _) => w

/-- A sequence of operations on the concrete vector. -/
def vecExec (v : Vec α) (ops : List (Op α)) : Vec α := ops.foldl vecStep v

/-- The coupling invariant between a concrete vector state and the
abstract list of its live elements: the buffer has exactly `cap` slots,
`len` matches the abstract length and fits in the buffer, and slot `i`
holds element `i` for every live position. -/
def Vec.Models (v : Vec α) (l : List α) : Prop :=
  v.buf.length = v.cap ∧ v.len = l.length ∧ v.len ≤ v.cap ∧
    ∀ i : Nat, i < l.length → readSlot v.buf i = l[i]?

instance (v : Vec α) (l : List α) [DecidableEq α] : Decidable (v.Models l) := by
  unfold Vec.Models
  infer_instance

instance {ε β : Type} [DecidableEq ε] [DecidableEq β] : DecidableEq (Except ε β)
  | .ok x, .ok y =>
    if h : x = y then isTrue (congrArg Except.ok h)
    else isFalse (fun hc => h (Except.ok.inj hc))
  | .error x, .error y =>
    if h : x = y then isTrue (congrArg Except.error h)
    else isFalse (fun hc => h (Except.error.inj hc))
  | .ok _, .error _ => isFalse (fun hc => Except.noConfusion hc)
  | .error _, .ok _ => isFalse (fun hc => Except.noConfusion hc)

/-! ## Growth arithmetic (src/src/vec.rs lines 29–36 and
src/src/raw_vec.rs lines 25–33) -/

/-- The reallocation byte count of the `cap > 0` branch of `grow`:
`old_num_bytes = self.cap * elem_size; new_num_bytes = old_num_bytes * 2`. -/
def growNewNumBytes (cap elemSize : Nat) : Nat := cap * elemSize * 2

/-- The new slot count of the `cap > 0` branch of `grow`:
`new_cap = self.cap * 2`. -/
def growNewCap (cap : Nat) : Nat := cap * 2

/-- A request made to the global allocator. -/
inductive AllocCall where
  | alloc (layoutBytes : Nat)
  | realloc (oldLayoutBytes newSizeBytes : Nat)
deriving DecidableEq

/-- `Vec::grow` (src/src/vec.rs lines 21–44) abstracted over the element
size: the new capacity it establishes and the allocator request it
makes.  `cap == 0`: `alloc(Layout::array::<T>(1))`, new cap 1; else
`realloc(ptr, Layout::array::<T>(cap), cap * elem_size * 2)`, new cap
`cap * 2`. -/
def vecGrowCall (cap elemSize : Nat) : Nat × AllocCall :=
  if cap = 0 then (1, .alloc (1 * elemSize))
  else (cap * 2, .realloc (cap * elemSize) (cap * elemSize * 2))

/-- `RawVec::grow` (src/src/raw_vec.rs lines 17–41) abstracted the same
way: `cap == 0`: `alloc(Layout::array::<T>(1))`, new cap 1; else
`realloc(ptr, Layout::array::<T>(cap), old_num_bytes * 2)` with
`old_num_bytes = cap * elem_size`, new cap `cap * 2`. -/
def rawVecGrowCall (cap elemSize : Nat) : Nat × AllocCall :=
  if cap = 0 then (1, .alloc (1 * elemSize))
  else (cap * 2, .realloc (cap * elemSize) ((cap * elemSize) * 2))

/-! ## Lemmas about the memory primitives -/

@[simp] theorem length_memmove (buf : List (Option α)) (src dst n : Nat) :
    (memmove buf src dst n).length = buf.length := by
  simp [memmove]

theorem readSlot_memmove (buf : List (Option α)) (src dst n j : Nat) (hj : j < buf.length) :
    readSlot (memmove buf src dst n) j =
      if dst ≤ j ∧ j < dst + n then readSlot buf (src + (j - dst)) else readSlot buf j := by
  unfold memmove
  rw [readSlot, List.getElem?_map, List.getElem?_range hj]
  rfl

@[simp] theorem length_writeSlot (buf : List (Option α)) (i : Nat) (x : α) :
    (writeSlot buf i x).length = buf.length := by
  simp [writeSlot]

theorem readSlot_writeSlot (buf : List (Option α)) (i : Nat) (x : α) (j : Nat) :
    readSlot (writeSlot buf i x) j =
      if i = j ∧ i < buf.length then some x else readSlot buf j := by
  unfold writeSlot readSlot
  rcases Decidable.em (i = j) with rfl | hne
  · rcases Decidable.em (i < buf.length) with hlt | hge
    · rw [List.getElem?_set_self hlt]
      simp [hlt]
    · rw [List.getElem?_set_self']
      have : buf[i]? = none := by
        rw [List.getElem?_eq_none]
        omega
      simp [this, hge]
  · rw [List.getElem?_set_ne hne]
    simp [hne]

/-! ## Simulation lemmas: each concrete operation refines its
list-level counterpart -/

theorem readSlot_append_left {buf r : List (Option α)} {i : Nat} (h : i < buf.length) :
    readSlot (buf ++ r) i = readSlot buf i := by
  unfold readSlot
  rw [List.getElem?_append_left h]

theorem models_new : (Vec.new : Vec α).Models [] := by
  refine ⟨rfl, rfl, Nat.le_refl 0, ?_⟩
  intro i hi
  simp at hi

theorem models_len {v : Vec α} {l : List α} (h : v.Models l) : v.len = l.length := h.2.1

theorem grow_cap {v : Vec α} : v.grow.cap = if v.cap = 0 then 1 else v.cap * 2 := by
  unfold Vec.grow
  rcases Decidable.em (v.cap = 0) with h0 | h0
  · simp [h0]
  · simp [h0]

theorem grow_len {v : Vec α} : v.grow.len = v.len := by
  unfold Vec.grow
  rcases Decidable.em (v.cap = 0) with h0 | h0
  · simp [h0]
  · simp [h0]

theorem grow_models {v : Vec α} {l : List α} (h : v.Models l) :
    v.grow.Models l ∧ v.cap < v.grow.cap ∧ v.grow.len = v.len := by
  obtain ⟨hb, hl, hlc, hr⟩ := h
  rcases Decidable.em (v.cap = 0) with h0 | h0
  · have hl0 : l.length = 0 := by omega
    have hcap : v.grow.cap = 1 := by rw [grow_cap, if_pos h0]
    refine ⟨⟨?_, ?_, ?_, ?_⟩, ?_, grow_len⟩
    · show v.grow.buf.length = v.grow.cap
      unfold Vec.grow
      simp [h0]
    · rw [grow_len, hl]
    · rw [grow_len, hcap]
      omega
    · intro i hi
      omega
    · omega
  · have hcap : v.grow.cap = v.cap * 2 := by rw [grow_cap, if_neg h0]
    have hbuf : v.grow.buf = v.buf ++ List.replicate v.cap none := by
      unfold Vec.grow
      simp [h0]
    refine ⟨⟨?_, ?_, ?_, ?_⟩, ?_, grow_len⟩
    · rw [hbuf, hcap]
      simp [hb]
      omega
    · rw [grow_len, hl]
    · rw [grow_len, hcap]
      omega
    · intro i hi
      rw [hbuf, readSlot_append_left (by omega)]
      exact hr i hi
    · omega

theorem growIf_models {v : Vec α} {l : List α} (h : v.Models l) :
    (if v.len = v.cap then v.grow else v).Models l ∧
      l.length < (if v.len = v.cap then v.grow else v).cap ∧
      (if v.len = v.cap then v.grow else v).len = v.len := by
  have hlen := models_len h
  rcases Decidable.em (v.len = v.cap) with he | he
  · obtain ⟨hm, hc, hl⟩ := grow_models h
    rw [if_pos he]
    exact ⟨hm, by omega, hl⟩
  · have hlc := h.2.2.1
    rw [if_neg he]
    exact ⟨h, by omega, rfl⟩

theorem push_models {v : Vec α} {l : List α} (h : v.Models l) (x : α) :
    (v.push x).Models (l ++ [x]) := by
  obtain ⟨hm, hcap, hlen⟩ := growIf_models h
  set w := if v.len = v.cap then v.grow else v with hw
  obtain ⟨hb, hl, hlc, hr⟩ := hm
  refine ⟨by simp [Vec.push, ← hw, hb], by simp [Vec.push, ← hw, hl], ?_, ?_⟩
  · simp only [Vec.push, ← hw]
    omega
  · intro i hi
    simp only [Vec.push, ← hw]
    rw [readSlot_writeSlot]
    rcases Decidable.em (w.len = i) with rfl | hne
    · rw [if_pos ⟨rfl, by omega⟩]
      rw [List.getElem?_append_right (by omega)]
      simp [hl]
    · rw [if_neg (by tauto)]
      have hi' : i < l.length := by
        simp at hi
        omega
      rw [List.getElem?_append_left hi']
      exact hr i hi'

theorem pop_models_nil {v : Vec α} (h : v.Models []) : v.pop = (v, none) := by
  have := models_len h
  simp [Vec.pop, this]

theorem pop_models_snoc {v : Vec α} {l : List α} {x : α} (h : v.Models (l ++ [x])) :
    v.pop = ({ v with len := l.length }, some x) ∧
      (Vec.Models { v with len := l.length } l) := by
  obtain ⟨hb, hl, hlc, hr⟩ := h
  have hlen : v.len = l.length + 1 := by simp at hl; omega
  constructor
  · have hx : readSlot v.buf l.length = some x := by
      rw [hr l.length (by simp)]
      rw [List.getElem?_append_right (by omega)]
      simp
    simp [Vec.pop, hlen, hx]
  · refine ⟨hb, rfl, ?_, ?_⟩
    · show l.length ≤ v.cap
      omega
    · intro i hi
      show readSlot v.buf i = l[i]?
      rw [hr i (by simp; omega)]
      rw [List.getElem?_append_left hi]

theorem view_models {v : Vec α} {l : List α} (h : v.Models l) :
    v.view = l.map some := by
  obtain ⟨hb, hl, hlc, hr⟩ := h
  apply List.ext_getElem?
  intro i
  rw [Vec.view, List.getElem?_take, List.getElem?_map]
  rcases Decidable.em (i < v.len) with hi | hi
  · rw [if_pos hi]
    have hi' : i < l.length := by omega
    have hread := hr i hi'
    unfold readSlot at hread
    have hbl : i < v.buf.length := by omega
    rw [List.getElem?_eq_getElem hbl] at hread ⊢
    rw [List.getElem?_eq_getElem hi'] at hread ⊢
    simp at hread
    simp [hread]
  · rw [if_neg hi]
    have hnone : l[i]? = none := by
      rw [List.getElem?_eq_none]
      omega
    simp [hnone]

theorem insertList_length {l : List α} {i : Nat} (x : α) (hi : i ≤ l.length) :
    (l.take i ++ x :: l.drop i).length = l.length + 1 := by
  simp
  omega

theorem insertList_getElem {l : List α} {i : Nat} (x : α) (hi : i ≤ l.length) (j : Nat) :
    (l.take i ++ x :: l.drop i)[j]? =
      if j < i then l[j]? else if j = i then some x else l[j - 1]? := by
  have htake : (l.take i).length = i := by
    simp
    omega
  rcases Nat.lt_trichotomy j i with hj | rfl | hj
  · rw [List.getElem?_append_left (by omega), List.getElem?_take, if_pos hj, if_pos hj]
  · rw [List.getElem?_append_right (by omega), htake]
    simp
  · rw [List.getElem?_append_right (by omega), htake]
    have hsucc : j - i = (j - i - 1) + 1 := by omega
    rw [hsucc, List.getElem?_cons_succ, List.getElem?_drop]
    rw [if_neg (by omega), if_neg (by omega)]
    congr 1
    omega

theorem removeList_length {l : List α} {i : Nat} (hi : i < l.length) :
    (l.take i ++ l.drop (i + 1)).length = l.length - 1 := by
  simp
  omega

theorem removeList_getElem {l : List α} {i : Nat} (hi : i < l.length) (j : Nat) :
    (l.take i ++ l.drop (i + 1))[j]? = if j < i then l[j]? else l[j + 1]? := by
  have htake : (l.take i).length = i := by
    simp
    omega
  rcases Decidable.em (j < i) with hj | hj
  · rw [List.getElem?_append_left (by omega), List.getElem?_take, if_pos hj, if_pos hj]
  · rw [List.getElem?_append_right (by omega), htake, List.getElem?_drop]
    rw [if_neg hj]
    congr 1
    omega

theorem insert_ok {v : Vec α} {l : List α} {i : Nat} (x : α) (h : v.Models l)
    (hi : i ≤ l.length) :
    ∃ w, v.insert i x = .ok w ∧ w.Models (l.take i ++ x :: l.drop i) := by
  obtain ⟨hm, hcap, hlen⟩ := growIf_models h
  have hvlen := models_len h
  obtain ⟨hb, hl, hlc, hr⟩ := hm
  simp only [Vec.insert]
  set w := if v.len = v.cap then v.grow else v with hw
  rw [if_neg (by omega)]
  set mc := w.len - i with hmc
  set buf2 := if mc > 0 then memmove w.buf i (i + 1) mc else w.buf with hbuf2
  have hbuf2len : buf2.length = w.buf.length := by
    rw [hbuf2]
    rcases Decidable.em (mc > 0) with hgt | hgt
    · rw [if_pos hgt, length_memmove]
    · rw [if_neg hgt]
  have hread2 : ∀ j : Nat, j < w.buf.length →
      readSlot buf2 j =
        if i + 1 ≤ j ∧ j < i + 1 + mc then readSlot w.buf (j - 1) else readSlot w.buf j := by
    intro j hj
    rw [hbuf2]
    rcases Decidable.em (mc > 0) with hgt | hgt
    · rw [if_pos hgt, readSlot_memmove _ _ _ _ _ hj]
      rcases Decidable.em (i + 1 ≤ j ∧ j < i + 1 + mc) with hin | hin
      · rw [if_pos hin, if_pos hin]
        congr 1
        omega
      · rw [if_neg hin, if_neg hin]
    · rw [if_neg hgt, if_neg (by omega)]
  refine ⟨_, rfl, ?_, ?_, ?_, ?_⟩
  · show (writeSlot buf2 i x).length = w.cap
    rw [length_writeSlot, hbuf2len, hb]
  · show w.len + 1 = (l.take i ++ x :: l.drop i).length
    rw [insertList_length x hi]
    omega
  · show w.len + 1 ≤ w.cap
    omega
  · intro j hj
    rw [insertList_length x hi] at hj
    show readSlot (writeSlot buf2 i x) j = (l.take i ++ x :: l.drop i)[j]?
    rw [readSlot_writeSlot, insertList_getElem x hi j]
    rcases Nat.lt_trichotomy j i with hji | rfl | hji
    · rw [if_neg (by omega), if_pos hji]
      rw [hread2 j (by omega), if_neg (by omega)]
      exact hr j (by omega)
    · rw [if_pos ⟨rfl, by omega⟩, if_neg (by omega), if_pos rfl]
    · rw [if_neg (by omega), if_neg (by omega), if_neg (by omega)]
      rw [hread2 j (by omega), if_pos (by omega)]
      exact hr (j - 1) (by omega)

theorem insert_err {v : Vec α} {l : List α} {i : Nat} (x : α) (h : v.Models l)
    (hi : i > l.length) :
    v.insert i x =
        .error (if v.len = v.cap then v.grow else v, "overflow " ++ toString i) ∧
      (if v.len = v.cap then v.grow else v).Models l := by
  obtain ⟨hm, hcap, hlen⟩ := growIf_models h
  have hvlen := models_len h
  constructor
  · simp only [Vec.insert]
    rw [if_pos (by omega)]
  · exact hm

theorem remove_err_empty {v : Vec α} (h : v.len = 0) (i : Nat) :
    v.remove i = .error (v, "empty") := by
  simp [Vec.remove, h]

theorem remove_err_oob {v : Vec α} {i : Nat} (h0 : v.len ≠ 0) (h : i ≥ v.len) :
    v.remove i = .error (v, "out of index") := by
  simp only [Vec.remove]
  rw [if_neg h0, if_pos h]

theorem remove_ok {v : Vec α} {l : List α} {i : Nat} (h : v.Models l) (hi : i < l.length) :
    ∃ w, v.remove i = .ok (w, l[i]?) ∧ w.Models (l.take i ++ l.drop (i + 1)) := by
  have hvlen := models_len h
  obtain ⟨hb, hl, hlc, hr⟩ := h
  simp only [Vec.remove]
  rw [if_neg (by omega), if_neg (by omega)]
  set mc := v.len - i - 1 with hmc
  set buf2 := if mc > 0 then memmove v.buf (i + 1) i mc else v.buf with hbuf2
  have hbuf2len : buf2.length = v.buf.length := by
    rw [hbuf2]
    rcases Decidable.em (mc > 0) with hgt | hgt
    · rw [if_pos hgt, length_memmove]
    · rw [if_neg hgt]
  have hread2 : ∀ j : Nat, j < v.buf.length →
      readSlot buf2 j =
        if i ≤ j ∧ j < i + mc then readSlot v.buf (j + 1) else readSlot v.buf j := by
    intro j hj
    rw [hbuf2]
    rcases Decidable.em (mc > 0) with hgt | hgt
    · rw [if_pos hgt, readSlot_memmove _ _ _ _ _ hj]
      rcases Decidable.em (i ≤ j ∧ j < i + mc) with hin | hin
      · rw [if_pos hin, if_pos hin]
        congr 1
        omega
      · rw [if_neg hin, if_neg hin]
    · rw [if_neg hgt, if_neg (by omega)]
  rw [hr i hi]
  refine ⟨_, rfl, ?_, ?_, ?_, ?_⟩
  · show buf2.length = v.cap
    rw [hbuf2len, hb]
  · show v.len - 1 = (l.take i ++ l.drop (i + 1)).length
    rw [removeList_length hi]
    omega
  · show v.len - 1 ≤ v.cap
    omega
  · intro j hj
    rw [removeList_length hi] at hj
    show readSlot buf2 j = (l.take i ++ l.drop (i + 1))[j]?
    rw [removeList_getElem hi j, hread2 j (by omega)]
    rcases Decidable.em (j < i) with hji | hji
    · rw [if_neg (by omega), if_pos hji]
      exact hr j (by omega)
    · rw [if_pos (by omega), if_neg hji]
      exact hr (j + 1) (by omega)

theorem pushAll_models {v : Vec α} {l : List α} (h : v.Models l) (xs : List α) :
    (v.pushAll xs).Models (l ++ xs) := by
  induction xs generalizing v l with
  | nil => simpa [Vec.pushAll] using h
  | cons x xs ih =>
    have hstep := push_models h x
    have := ih hstep
    simpa [Vec.pushAll, List.foldl_cons] using this

theorem popN_models {v : Vec α} {l : List α} (h : v.Models l) :
    (v.popN l.length).2 = l.reverse.map some ∧ (v.popN l.length).1.Models [] := by
  induction l using List.reverseRecOn generalizing v with
  | nil =>
    exact ⟨rfl, h⟩
  | append_singleton l x ih =>
    obtain ⟨hpop, hmid⟩ := pop_models_snoc h
    have hlen : (l ++ [x]).length = l.length + 1 := by simp
    rw [hlen]
    obtain ⟨ih1, ih2⟩ := ih hmid
    constructor
    · show (let p := v.pop; let q := Vec.popN p.1 l.length; p.2 :: q.2) =
        ((l ++ [x]).reverse.map some)
      rw [hpop]
      simp only
      rw [ih1]
      simp
    · show (let p := v.pop; let q := Vec.popN p.1 l.length; q.1).Models []
      rw [hpop]
      exact ih2

theorem vecStep_models {v : Vec α} {l l' : List α} {op : Op α} (h : v.Models l)
    (hs : specStep l op = some l') : (vecStep v op).Models l' := by
  cases op with
  | push x =>
    simp only [specStep, Option.some.injEq] at hs
    subst hs
    exact push_models h x
  | insert i x =>
    simp only [specStep] at hs
    rcases Decidable.em (i ≤ l.length) with hi | hi
    · rw [if_pos hi, Option.some.injEq] at hs
      subst hs
      obtain ⟨w, heq, hm⟩ := insert_ok x h hi
      simpa [vecStep, heq] using hm
    · rw [if_neg hi] at hs
      cases hs
  | remove i =>
    simp only [specStep] at hs
    rcases Decidable.em (i < l.length) with hi | hi
    · rw [if_pos hi, Option.some.injEq] at hs
      subst hs
      obtain ⟨w, heq, hm⟩ := remove_ok h hi
      simpa [vecStep, heq] using hm
    · rw [if_neg hi] at hs
      cases hs

theorem vecExec_models {v : Vec α} {l l' : List α} {ops : List (Op α)} (h : v.Models l)
    (hs : specExec l ops = some l') : (vecExec v ops).Models l' := by
  induction ops generalizing v l with
  | nil =>
    simp only [specExec, Option.some.injEq] at hs
    subst hs
    simpa [vecExec] using h
  | cons op ops ih =>
    simp only [specExec] at hs
    cases hstep : specStep l op with
    | none => rw [hstep] at hs; cases hs
    | some l₁ =>
      rw [hstep] at hs
      have hmid := vecStep_models h hstep
      have := ih hmid hs
      simpa [vecExec, List.foldl_cons] using this

theorem growIf_len {v : Vec α} : (if v.len = v.cap then v.grow else v).len = v.len := by
  rcases Decidable.em (v.len = v.cap) with he | he
  · rw [if_pos he, grow_len]
  · rw [if_neg he]

/-! ## The claims -/

/-- C1: pushing any sequence of N values onto a freshly created vector
and then popping N times returns exactly those values in reverse order
of appending, each wrapped in `some` (the non-empty signal), and the
(N+1)-th pop returns `none` (the empty signal). -/
theorem claim_C1_push_pop_symmetry (α : Type) (xs : List α) :
    (((Vec.new : Vec α).pushAll xs).popN xs.length).2 = xs.reverse.map some ∧
      ((((Vec.new : Vec α).pushAll xs).popN xs.length).1).pop.2 = none := by
  have h1 : ((Vec.new : Vec α).pushAll xs).Models xs := by
    simpa using pushAll_models models_new xs
  obtain ⟨h2, h3⟩ := popN_models h1
  refine ⟨h2, ?_⟩
  rw [pop_models_nil h3]

/-- C2 fails: a fatal `insert` is NOT always detected before any
mutation — the bounds check runs after the conditional `grow`, so on a
fresh vector (`len = cap = 0`) the out-of-bounds call `insert(1, 5)`
grows the buffer (capacity 0 → 1) before it panics: the capacity at
the moment of the abort differs from the capacity before the call. -/
theorem claim_C2_counterexample :
    (Vec.new : Vec Nat).insert 1 5 = .error (⟨[none], 1, 0⟩, "overflow 1") ∧
      (⟨[none], 1, 0⟩ : Vec Nat).cap ≠ (Vec.new : Vec Nat).cap := by
  constructor
  · decide
  · decide

/-- C2 amended: whenever `remove` detects a fatal condition (empty
container or index ≥ length, on any vector and any index), the entire
state (buffer, length, capacity) is exactly the state before the call;
whenever `insert` detects its fatal condition (on any vector and any
index), the length and the visible element view are unchanged, but the
capacity may already have grown — it equals the grown capacity when
`len == cap` held at entry and the old capacity otherwise.  The two
statements are quantified over independent vectors and indices. -/
theorem claim_C2_abort_state {α : Type} (v v' w w' : Vec α) (l' : List α) (i i' : Nat)
    (x : α) (s s' : String) (h' : v'.Models l')
    (hrem : v.remove i = .error (w, s))
    (hins : v'.insert i' x = .error (w', s')) :
    w = v ∧ w'.len = v'.len ∧ w'.view = v'.view ∧
      w'.cap = if v'.len = v'.cap then (if v'.cap = 0 then 1 else v'.cap * 2) else v'.cap := by
  constructor
  · rcases Decidable.em (v.len = 0) with h0 | h0
    · rw [remove_err_empty h0 i] at hrem
      exact ((Prod.ext_iff.mp (Except.error.inj hrem)).1).symm
    · rcases Decidable.em (i ≥ v.len) with hge | hge
      · rw [remove_err_oob h0 hge] at hrem
        exact ((Prod.ext_iff.mp (Except.error.inj hrem)).1).symm
      · simp only [Vec.remove] at hrem
        rw [if_neg h0, if_neg hge] at hrem
        exact Except.noConfusion hrem
  · have hvlen := models_len h'
    rcases Decidable.em (i' > l'.length) with hi | hi
    · obtain ⟨heq, hm⟩ := insert_err x h' hi
      rw [heq] at hins
      have hw' : (if v'.len = v'.cap then v'.grow else v') = w' :=
        (Prod.ext_iff.mp (Except.error.inj hins)).1
      subst hw'
      refine ⟨growIf_len, ?_, ?_⟩
      · rw [view_models hm, view_models h']
      · rcases Decidable.em (v'.len = v'.cap) with he | he
        · rw [if_pos he, if_pos he, grow_cap]
        · rw [if_neg he, if_neg he]
    · obtain ⟨w0, heq, _⟩ := insert_ok x h' (show i' ≤ l'.length by omega)
      rw [heq] at hins
      exact Except.noConfusion hins

theorem claim_C2_abort_state_witness :
    (Vec.new : Vec Nat) = Vec.new ∧
      (⟨[none], 1, 0⟩ : Vec Nat).len = (Vec.new : Vec Nat).len ∧
      (⟨[none], 1, 0⟩ : Vec Nat).view = (Vec.new : Vec Nat).view ∧
      (⟨[none], 1, 0⟩ : Vec Nat).cap =
        (if (Vec.new : Vec Nat).len = (Vec.new : Vec Nat).cap
          then (if (Vec.new : Vec Nat).cap = 0 then 1 else (Vec.new : Vec Nat).cap * 2)
          else (Vec.new : Vec Nat).cap) :=
  claim_C2_abort_state (Vec.new : Vec Nat) (Vec.new : Vec Nat) Vec.new ⟨[none], 1, 0⟩
    [] 0 1 5 "empty" "overflow 1" (by decide) (by decide) (by decide)

/-- C3: for every vector whose live elements are `l` and every
`index ≤ length`, `insert(index, x)` succeeds and the resulting live
elements are `l[0..index] ++ [x] ++ l[index..]` (length `length + 1`);
in particular the spec's scenario B holds: pushing 1, 2 onto a fresh
vector, `insert(0,10)` gives view `[10,1,2]`, then `insert(1,20)`
gives `[10,20,1,2]`, then `insert(4,30)` gives `[10,20,1,2,30]`. -/
theorem claim_C3_insert_semantics :
    (∀ (α : Type) (v : Vec α) (l : List α) (i : Nat) (x : α),
      v.Models l → i ≤ l.length →
        ∃ w, v.insert i x = .ok w ∧ w.Models (l.take i ++ x :: l.drop i)) ∧
      ((((Vec.new : Vec Nat).pushAll [1, 2]).insert 0 10).map Vec.view =
          .ok [some 10, some 1, some 2] ∧
        (((((Vec.new : Vec Nat).pushAll [1, 2]).insert 0 10).bind
            fun v => v.insert 1 20).map Vec.view =
          .ok [some 10, some 20, some 1, some 2]) ∧
        ((((((Vec.new : Vec Nat).pushAll [1, 2]).insert 0 10).bind
            fun v => v.insert 1 20).bind fun v => v.insert 4 30).map Vec.view =
          .ok [some 10, some 20, some 1, some 2, some 30])) := by
  refine ⟨fun α v l i x h hi => insert_ok x h hi, ?_, ?_, ?_⟩ <;> decide

theorem claim_C3_insert_semantics_witness :
    ∃ w, ((Vec.new : Vec Nat).pushAll [1, 2]).insert 0 10 = .ok w ∧
      w.Models ([1, 2].take 0 ++ 10 :: [1, 2].drop 0) :=
  claim_C3_insert_semantics.1 Nat ((Vec.new : Vec Nat).pushAll [1, 2]) [1, 2] 0 10
    (by decide) (by decide)

/-- C4: for every vector whose live elements are `l` and every
`index < length`, `remove(index)` succeeds, returns the element at
`index` (as the slot read `l[index]?`), and the remaining live
elements are `l[0..index] ++ l[index+1..]` (length `length - 1`); in
particular the spec's scenario A holds: after pushing 1,2,3,4,
`remove(1)` returns 2 leaving view `[1,3,4]`, `remove(2)` returns 4
leaving `[1,3]`, `remove(0)` returns 1 leaving `[3]`, and `remove(0)`
returns 3 leaving `[]`. -/
theorem claim_C4_remove_semantics :
    (∀ (α : Type) (v : Vec α) (l : List α) (i : Nat),
      v.Models l → i < l.length →
        ∃ w, v.remove i = .ok (w, l[i]?) ∧ w.Models (l.take i ++ l.drop (i + 1))) ∧
      ((((Vec.new : Vec Nat).pushAll [1, 2, 3, 4]).remove 1).map
          (fun p => (p.1.view, p.2)) = .ok ([some 1, some 3, some 4], some 2) ∧
        ((((Vec.new : Vec Nat).pushAll [1, 2, 3, 4]).remove 1).bind
            fun p => p.1.remove 2).map (fun p => (p.1.view, p.2)) =
          .ok ([some 1, some 3], some 4) ∧
        (((((Vec.new : Vec Nat).pushAll [1, 2, 3, 4]).remove 1).bind
            fun p => p.1.remove 2).bind fun p => p.1.remove 0).map
          (fun p => (p.1.view, p.2)) = .ok ([some 3], some 1) ∧
        ((((((Vec.new : Vec Nat).pushAll [1, 2, 3, 4]).remove 1).bind
            fun p => p.1.remove 2).bind fun p => p.1.remove 0).bind
          fun p => p.1.remove 0).map (fun p => (p.1.view, p.2)) =
          .ok ([], some 3)) := by
  refine ⟨fun α v l i h hi => remove_ok h hi, ?_, ?_, ?_, ?_⟩ <;> decide

theorem claim_C4_remove_semantics_witness :
    ∃ w, ((Vec.new : Vec Nat).pushAll [1, 2, 3, 4]).remove 1 =
        .ok (w, [1, 2, 3, 4][1]?) ∧
      w.Models ([1, 2, 3, 4].take 1 ++ [1, 2, 3, 4].drop (1 + 1)) :=
  claim_C4_remove_semantics.1 Nat ((Vec.new : Vec Nat).pushAll [1, 2, 3, 4]) [1, 2, 3, 4] 1
    (by decide) (by decide)

/-- C5: for every vector state (each conjunct is quantified over its
own vector, so every state — the empty one included — is covered by
every applicable conjunct): `insert` with index strictly greater than
the length always takes the fatal path; `insert` with index at most
the length returns normally; `remove` with index at least the length
always takes the fatal path, and a vector with length 0 fails on any
`remove`; `remove` with index strictly below the length returns
normally.  (The model's allocator always succeeds, matching the
claim's "absent allocator failure".) -/
theorem claim_C5_boundary_fatal {α : Type} (v1 v2 v3 v4 u : Vec α) (x : α)
    (i1 i2 i3 i4 i5 : Nat) (h1 : i1 > v1.len) (h2 : i2 ≤ v2.len) (h3 : i3 ≥ v3.len)
    (h4 : i4 < v4.len) (h5 : u.len = 0) :
    (∃ w s, v1.insert i1 x = .error (w, s)) ∧
      (∃ w, v2.insert i2 x = .ok w) ∧
      (∃ w s, v3.remove i3 = .error (w, s)) ∧
      (∃ w r, v4.remove i4 = .ok (w, r)) ∧
      (∃ w s, u.remove i5 = .error (w, s)) := by
  refine ⟨?_, ?_, ?_, ?_, ?_⟩
  · simp only [Vec.insert]
    rw [growIf_len, if_pos h1]
    exact ⟨_, _, rfl⟩
  · simp only [Vec.insert]
    rw [growIf_len, if_neg (by omega)]
    exact ⟨_, rfl⟩
  · rcases Decidable.em (v3.len = 0) with h0 | h0
    · exact ⟨v3, "empty", remove_err_empty h0 i3⟩
    · exact ⟨v3, "out of index", remove_err_oob h0 h3⟩
  · simp only [Vec.remove]
    rw [if_neg (by omega), if_neg (by omega)]
    exact ⟨_, _, rfl⟩
  · exact ⟨u, "empty", remove_err_empty h5 i5⟩

theorem claim_C5_boundary_fatal_witness :
    (∃ w s, (Vec.new : Vec Nat).insert 1 0 = .error (w, s)) ∧
      (∃ w, (Vec.new : Vec Nat).insert 0 0 = .ok w) ∧
      (∃ w s, (Vec.new : Vec Nat).remove 0 = .error (w, s)) ∧
      (∃ w r, ((Vec.new : Vec Nat).pushAll [1, 2]).remove 0 = .ok (w, r)) ∧
      (∃ w s, (Vec.new : Vec Nat).remove 3 = .error (w, s)) :=
  claim_C5_boundary_fatal (Vec.new : Vec Nat) (Vec.new : Vec Nat) (Vec.new : Vec Nat)
    ((Vec.new : Vec Nat).pushAll [1, 2]) (Vec.new : Vec Nat) 0 1 0 0 0 3
    (by decide) (by decide) (by decide) (by decide) (by decide)

/-- C6: after every finite sequence of push/insert/remove operations
starting from a freshly created vector, with all insert/remove
preconditions respected (expressed as `specExec` succeeding), the
contiguous read view has the tracked logical length and holds exactly
the live elements in occupancy order. -/
theorem claim_C6_contiguity {α : Type} (ops : List (Op α)) (l : List α)
    (h : specExec [] ops = some l) :
    (vecExec Vec.new ops).len = l.length ∧ (vecExec Vec.new ops).view = l.map some := by
  have hm := vecExec_models models_new h
  exact ⟨models_len hm, view_models hm⟩

theorem claim_C6_contiguity_witness :
    (vecExec (Vec.new : Vec Nat) [.push 1, .insert 0 2, .remove 1]).len = 1 ∧
      (vecExec (Vec.new : Vec Nat) [.push 1, .insert 0 2, .remove 1]).view = [some 2] :=
  claim_C6_contiguity [.push 1, .insert 0 2, .remove 1] [2] (by decide)

/-- C8 fails: `remove`'s two fatal diagnostics are the fixed strings
"out of index" and "empty" — the same string for offending indices 5
and 99, and containing no digit at all — so they do not include the
offending value, contradicting the claim that every fatal diagnostic
does. -/
theorem claim_C8_counterexample :
    ((Vec.new : Vec Nat).pushAll [1]).remove 5 =
        .error ((Vec.new : Vec Nat).pushAll [1], "out of index") ∧
      ((Vec.new : Vec Nat).pushAll [1]).remove 99 =
        .error ((Vec.new : Vec Nat).pushAll [1], "out of index") ∧
      (Vec.new : Vec Nat).remove 3 = .error (Vec.new, "empty") ∧
      ("out of index".data.all fun c => !c.isDigit) = true ∧
      ("empty".data.all fun c => !c.isDigit) = true := by
  refine ⟨?_, ?_, ?_, ?_, ?_⟩ <;> decide

/-- C8 amended: every fatal condition aborts with a diagnostic that
identifies the violated invariant, but only `insert`'s diagnostic
(`"overflow {index}"`) includes the offending index; `remove`'s
diagnostics are the fixed strings `"out of index"` and `"empty"`,
which do not include the offending value.  Each conjunct is quantified
over its own vector, so every fatal insert — including one on an empty
vector — and every fatal remove is covered. -/
theorem claim_C8_diagnostics {α : Type} (t v u : Vec α) (i j k : Nat) (x : α)
    (hi : i > t.len) (h0 : v.len ≠ 0) (hj : j ≥ v.len) (hu : u.len = 0) :
    (∃ w, t.insert i x = .error (w, "overflow " ++ toString i)) ∧
      v.remove j = .error (v, "out of index") ∧
      u.remove k = .error (u, "empty") := by
  refine ⟨?_, ?_, ?_⟩
  · simp only [Vec.insert]
    rw [growIf_len, if_pos hi]
    exact ⟨_, rfl⟩
  · exact remove_err_oob h0 hj
  · exact remove_err_empty hu k

theorem claim_C8_diagnostics_witness :
    (∃ w, (Vec.new : Vec Nat).insert 1 5 = .error (w, "overflow " ++ toString 1)) ∧
      ((Vec.new : Vec Nat).pushAll [1]).remove 4 =
        .error ((Vec.new : Vec Nat).pushAll [1], "out of index") ∧
      (Vec.new : Vec Nat).remove 2 = .error (Vec.new, "empty") :=
  claim_C8_diagnostics (Vec.new : Vec Nat) ((Vec.new : Vec Nat).pushAll [1]) Vec.new 1 4 2 5
    (by decide) (by decide) (by decide) (by decide)

/-- C7: each growth event sets the new capacity to 1 when the current
capacity is 0 and to exactly double the current capacity otherwise, so
iterating `grow` from the freshly created vector (capacity 0) yields
the capacity sequence 0, 1, 2, 4, 8, …, i.e. `2 ^ (k - 1)` after the
k-th growth. -/
theorem claim_C7_growth_doubling (α : Type) :
    (∀ v : Vec α, v.grow.cap = if v.cap = 0 then 1 else v.cap * 2) ∧
      (∀ k : Nat, ((Vec.grow)^[k] (Vec.new : Vec α)).cap =
        if k = 0 then 0 else 2 ^ (k - 1)) := by
  refine ⟨fun v => grow_cap, ?_⟩
  intro k
  induction k with
  | zero => rfl
  | succ k ih =>
    rw [Function.iterate_succ_apply', grow_cap, ih]
    rcases Decidable.em (k = 0) with hk | hk
    · subst hk
      simp
    · rw [if_neg hk, if_neg (by positivity), if_neg (by omega)]
      have h1 : k - 1 + 1 = k := by omega
      have h2 : k + 1 - 1 = k := by omega
      rw [h2, ← pow_succ, h1]

/-- C9 fails: the reallocation byte count obtained by doubling the old
byte count (`new_num_bytes = cap * elem_size * 2`) never differs from
slot-count doubling (`new_cap * elem_size` with `new_cap = cap * 2`) —
the two computations agree for every capacity and element size, so the
alleged inconsistency does not exist. -/
theorem claim_C9_counterexample :
    ¬ ∃ cap elemSize : Nat,
        0 < cap ∧ growNewNumBytes cap elemSize ≠ growNewCap cap * elemSize := by
  intro h
  obtain ⟨c, e, _, hne⟩ := h
  apply hne
  unfold growNewNumBytes growNewCap
  ring

/-- C9 amended: in the reallocation path of `grow`, the byte count
computed by doubling the old byte count coincides with slot-count
doubling times the element size, for every capacity and element size
(and hence also modulo 2^64, i.e. under `usize` wraparound). -/
theorem claim_C9_growth_bytes_consistent (cap elemSize : Nat) :
    growNewNumBytes cap elemSize = growNewCap cap * elemSize ∧
      growNewNumBytes cap elemSize % 2 ^ 64 = (growNewCap cap * elemSize) % 2 ^ 64 := by
  constructor
  · unfold growNewNumBytes growNewCap
    ring
  · unfold growNewNumBytes growNewCap
    ring_nf

/-- C10: `Vec::grow` and `RawVec::grow` are behaviorally equivalent:
for every starting capacity and element size they compute the same new
capacity (1 if the old capacity was 0, else double) and issue the same
allocation/reallocation request to the allocator; moreover the
capacity field of the state-level `Vec.grow` matches the common new
capacity. -/
theorem claim_C10_grow_equivalence :
    (∀ cap elemSize : Nat, vecGrowCall cap elemSize = rawVecGrowCall cap elemSize) ∧
      (∀ (α : Type) (v : Vec α) (elemSize : Nat),
        v.grow.cap = (vecGrowCall v.cap elemSize).1) := by
  constructor
  · intro cap elemSize
    unfold vecGrowCall rawVecGrowCall
    rfl
  · intro α v elemSize
    rw [grow_cap]
    unfold vecGrowCall
    rcases Decidable.em (v.cap = 0) with h0 | h0
    · rw [if_pos h0, if_pos h0]
    · rw [if_neg h0, if_neg h0]

end MakeVec
